import Mathlib

/-!
Shallow embedding of `algo2.py` (MaMPy-TIGD): union-find based max-tree
construction without union-by-rank (Berger et al. variant).

Modelling conventions:
* numpy arrays of pixel indices become `List Nat`; the transient image,
  parent and zparent arrays are threaded explicitly through the folds.
* numpy indexing `a[i]` with a possibly negative Python int becomes `npGet` /
  `npSet`: a negative index wraps once (numpy semantics); an index outside
  `[-len, len)` is an `IndexError`, modelled as `none`.  All fallible code
  lives in the `Option` monad, so a `none` result models a raised exception.
* the recursive `find_pixel_parent` gets an explicit fuel argument; the
  driver passes `resolution + 1` fuel, which is enough for every run that
  terminates in Python (a longer pointer chase repeats a slot and loops).
* `np.argsort` on the flattened image is modelled as the sort of all pixel
  indices by intensity with ties broken by ascending original index (the
  deterministic tie-break the specification fixes); `np.full` with the
  sentinel `resolution + 2` into a uint32 array raises `OverflowError` when
  the sentinel exceeds the uint32 range, modelled by the `2 ^ 32` guard.
* `image.shape` on an empty or ragged nested list raises in numpy
  (`IndexError` / inhomogeneous-shape `ValueError`), modelled as `none`.
* the final `np.reshape` only changes the shape, never the flat contents;
  the model keeps the flat parent array, and claims read it at flat indices.
-/

namespace MaMPy

/-- Read a list at a nonnegative index, numpy-style: out of range is an
error (`none`). -/
def natGet (xs : List Nat) (i : Nat) : Option Nat := xs[i]?

/-- Write a list at a nonnegative index, numpy-style: out of range is an
error (`none`). -/
def natSet (xs : List Nat) (i : Nat) (v : Nat) : Option (List Nat) :=
  if i < xs.length then some (xs.set i v) else none

/-- Resolve a possibly negative Python/numpy index against an array length:
a negative index wraps once; anything outside `[-len, len)` is an error. -/
def npIdx (len : Nat) (i : Int) : Option Nat :=
  if 0 ≤ i ∧ i < (len : Int) then some i.toNat
  else if -(len : Int) ≤ i ∧ i < 0 then some (i + len).toNat
  else none

/-- numpy read with a possibly negative index. -/
def npGet (xs : List Nat) (i : Int) : Option Nat :=
  (npIdx xs.length i).bind (fun e => natGet xs e)

/-- numpy write with a possibly negative index. -/
def npSet (xs : List Nat) (i : Int) (v : Nat) : Option (List Nat) :=
  (npIdx xs.length i).bind (fun e => natSet xs e v)

/-- `find_pixel_parent(parents, index)` from `algo2.py`: follow parent
pointers to a self-referencing entry, rewriting every visited entry to the
discovered root on the way back (recursive path compression).  `fuel`
bounds the recursion depth; a run that exhausts it is `none`, which models
a pointer chase that never reaches a root. -/
def find_pixel_parent (fuel : Nat) (parents : List Nat) (index : Int) :
    Option (List Nat × Nat) :=
  match fuel with
  | 0 => none
  | fuel + 1 =>
    match npGet parents index with
    | none => none
    | some root =>
      if (root : Int) = index then some (parents, root)
      else
        match find_pixel_parent fuel parents (root : Int) with
        | none => none
        | some (ps1, r) =>
          match npSet ps1 index r with
          | none => none
          | some ps2 => some (ps2, r)

/-- One iteration of the `canonize` loop of `algo2.py` at pixel `pi`, on the
state `(image, parents)`: `root = parents[pi]`; if
`image[root] == image[parents[root]]` then `parents[pi] = parents[root]`.
Only the parent component is ever written. -/
def canonStep (st : List Nat × List Nat) (pi : Nat) :
    Option (List Nat × List Nat) :=
  match natGet st.2 pi with
  | none => none
  | some root =>
    match natGet st.1 root with
    | none => none
    | some a =>
      match natGet st.2 root with
      | none => none
      | some pr =>
        match natGet st.1 pr with
        | none => none
        | some b =>
          if a = b then
            match natSet st.2 pi pr with
            | none => none
            | some ps2 => some (st.1, ps2)
          else some st

/-- `canonize(image, parents, nodes_order)` from `algo2.py`: run `canonStep`
over the traversal order, threading the `(image, parents)` state. -/
def canonize (st : List Nat × List Nat) :
    List Nat → Option (List Nat × List Nat)
  | [] => some st
  | pi :: rest =>
    match canonStep st pi with
    | none => none
    | some st1 => canonize st1 rest

/-- `get_4_neighbors(width, height, resolution, pi, pixel_row)` from
`algo2.py`, kept verbatim: up/down are bounds-checked, left/right are kept
when `(pi ∓ 1) % width == pixel_row` (Python's floored modulo, hence
`Int.emod` with a positive divisor).  `height` is received and ignored,
as in the source. -/
def get_4_neighbors (width height resolution pi pixel_row : Nat) : List Int :=
  let top_pi : Int := (pi : Int) - (width : Int)
  let bottom_pi : Int := (pi : Int) + (width : Int)
  let left_pi : Int := (pi : Int) - 1
  let right_pi : Int := (pi : Int) + 1
  (if 0 ≤ top_pi then [top_pi] else []) ++
  (if bottom_pi < (resolution : Int) then [bottom_pi] else []) ++
  (if Int.emod left_pi (width : Int) = (pixel_row : Int) then [left_pi] else []) ++
  (if Int.emod right_pi (width : Int) = (pixel_row : Int) then [right_pi] else [])

/-- `get_8_neighbors(width, height, resolution, pi, pixel_row)` from
`algo2.py`: the 4-neighbors plus the four diagonals with the source's
bound and `% width` row checks. -/
def get_8_neighbors (width height resolution pi pixel_row : Nat) : List Int :=
  let top_left_pi : Int := (pi : Int) - (width : Int) - 1
  let top_right_pi : Int := top_left_pi + 2
  let bottom_left_pi : Int := (pi : Int) + (width : Int) - 1
  let bottom_right_pi : Int := bottom_left_pi + 2
  get_4_neighbors width height resolution pi pixel_row ++
  (if 0 ≤ top_left_pi ∧ Int.emod top_left_pi (width : Int) = (pixel_row : Int) - 1 then
    [top_left_pi] else []) ++
  (if 0 ≤ top_right_pi ∧ Int.emod top_right_pi (width : Int) = (pixel_row : Int) - 1 then
    [top_right_pi] else []) ++
  (if bottom_left_pi < (resolution : Int) ∧
      Int.emod bottom_left_pi (width : Int) = (pixel_row : Int) + 1 then
    [bottom_left_pi] else []) ++
  (if bottom_right_pi < (resolution : Int) ∧
      Int.emod bottom_right_pi (width : Int) = (pixel_row : Int) + 1 then
    [bottom_right_pi] else [])

/-- Intensity order used to model `np.argsort`: compare flattened-image
values, break ties by ascending original index (the deterministic
tie-break rule the specification fixes for the sort). -/
def lexLe (f : List Nat) (a b : Nat) : Prop :=
  f.getD a 0 < f.getD b 0 ∨ (f.getD a 0 = f.getD b 0 ∧ a ≤ b)

instance (f : List Nat) : DecidableRel (lexLe f) := fun a b => by
  unfold lexLe; infer_instance

/-- `flatten_image.argsort()` from `algo2.py`: all pixel indices sorted by
increasing intensity, ties by ascending index. -/
def argsort (f : List Nat) : List Nat :=
  List.insertionSort (lexLe f) (List.range f.length)

/-- The neighbor filtering `[n for n in neighbors if parents[n] != undefined_node]`
from `algo2.py`; each read `parents[n]` can raise. -/
def filter_defined (parents : List Nat) (undef : Nat) :
    List Int → Option (List Int)
  | [] => some []
  | n :: rest =>
    match npGet parents n with
    | none => none
    | some v =>
      match filter_defined parents undef rest with
      | none => none
      | some tail => some (if v = undef then tail else n :: tail)

/-- One merge of the inner loop of `maxtree_berger` for neighbor `n`:
`nei_root = find_pixel_parent(zparents, n)`; if it differs from the
current pixel `pi`, set `zparents[nei_root] = parents[nei_root] = pi`.
The state is `(parents, zparents)`. -/
def merge_step (resolution pi : Nat) (st : List Nat × List Nat) (n : Int) :
    Option (List Nat × List Nat) :=
  match find_pixel_parent (resolution + 1) st.2 n with
  | none => none
  | some (zs1, nei_root) =>
    if nei_root = pi then some (st.1, zs1)
    else
      match natSet zs1 nei_root pi with
      | none => none
      | some zs2 =>
        match natSet st.1 nei_root pi with
        | none => none
        | some ps2 => some (ps2, zs2)

/-- Run `merge_step` over the filtered neighbor list. -/
def merge_run (resolution pi : Nat) (st : List Nat × List Nat) :
    List Int → Option (List Nat × List Nat)
  | [] => some st
  | n :: rest =>
    match merge_step resolution pi st n with
    | none => none
    | some st1 => merge_run resolution pi st1 rest

/-- The body of the main loop of `maxtree_berger` for pixel `pi`:
`parents[pi] = pi; zparents[pi] = pi`, compute `pixel_row = pi % width`,
enumerate neighbors per the connectivity flag, filter the undefined ones,
then merge. -/
def pixel_step (connection8 : Bool) (width height resolution undef : Nat)
    (st : List Nat × List Nat) (pi : Nat) : Option (List Nat × List Nat) :=
  match natSet st.1 pi pi with
  | none => none
  | some ps1 =>
    match natSet st.2 pi pi with
    | none => none
    | some zs1 =>
      let pixel_row := pi % width
      let nbrs :=
        if connection8 then get_8_neighbors width height resolution pi pixel_row
        else get_4_neighbors width height resolution pi pixel_row
      match filter_defined ps1 undef nbrs with
      | none => none
      | some kept => merge_run resolution pi (ps1, zs1) kept

/-- Run `pixel_step` over a pixel list (the reversed ascending order). -/
def pixels_run (connection8 : Bool) (width height resolution undef : Nat)
    (st : List Nat × List Nat) :
    List Nat → Option (List Nat × List Nat)
  | [] => some st
  | pi :: rest =>
    match pixel_step connection8 width height resolution undef st pi with
    | none => none
    | some st1 => pixels_run connection8 width height resolution undef st1 rest

/-- The construction pass of `maxtree_berger` (everything before the call to
`canonize`): shape extraction, flattening, argsort, sentinel-filled parent
and zparent arrays, and the reverse-order union loop.  Returns the final
`(parents, zparents)`. -/
def bergerConstruct (image : List (List Nat)) (connection8 : Bool) :
    Option (List Nat × List Nat) :=
  if image.length = 0 then none
  else
    let width := image.length
    let height := (image.headD []).length
    if image.all (fun r => r.length == height) then
      let flatten_image := image.flatten
      let resolution := flatten_image.length
      if resolution + 2 < 2 ^ 32 then
        let undefined_node := resolution + 2
        let sorted_pixels := argsort flatten_image
        pixels_run connection8 width height resolution undefined_node
          (List.replicate resolution undefined_node,
           List.replicate resolution undefined_node)
          sorted_pixels.reverse
      else none
    else none

/-- `maxtree_berger(image, connection8)` from `algo2.py`: the construction
pass followed by `canonize(flatten_image, parents, sorted_pixels)`.
Returns the flattened image as it stands after the call, the flat parent
array, and the ascending order array (`sorted_pixels`). -/
def maxtree_berger (image : List (List Nat)) (connection8 : Bool) :
    Option (List Nat × List Nat × List Nat) :=
  match bergerConstruct image connection8 with
  | none => none
  | some (parents, _zparents) =>
    match canonize (image.flatten, parents) (argsort image.flatten) with
    | none => none
    | some (img2, parents2) => some (img2, parents2, argsort image.flatten)

/-- The iterated parent-pointer chain of an array: `parentChain ps i k` is
the pixel reached from `i` after `k` pointer steps. -/
def parentChain (ps : List Nat) (i : Nat) : Nat → Nat
  | 0 => i
  | k + 1 => ps.getD (parentChain ps i k) 0

/-- A pixel `b` is reachable from `a` by following parent pointers. -/
def Reaches (ps : List Nat) (a b : Nat) : Prop :=
  Relation.ReflTransGen (fun u v => u < ps.length ∧ ps.getD u 0 = v) a b

/-- The input is a non-empty rectangular intensity grid: at least one row,
all rows of the first row's (positive) length. -/
def NonEmptyRect (image : List (List Nat)) : Prop :=
  image ≠ [] ∧ (image.headD []).length ≠ 0 ∧
    ∀ r ∈ image, r.length = (image.headD []).length

/-! ### Basic facts about the array-access primitives -/

theorem getD_set_self {xs : List Nat} {i v : Nat} (h : i < xs.length) :
    (xs.set i v).getD i 0 = v := by
  rw [List.getD_eq_getElem _ _ (by simpa using h)]
  exact List.getElem_set_self _

theorem getD_set_ne {xs : List Nat} {i j v : Nat} (h : j ≠ i) :
    (xs.set i v).getD j 0 = xs.getD j 0 := by
  rw [List.getD_eq_getElem?_getD, List.getD_eq_getElem?_getD,
    List.getElem?_set_ne (fun he => h he.symm)]

theorem set_getD_self {xs : List Nat} {i : Nat} (h : i < xs.length) :
    xs.set i (xs.getD i 0) = xs := by
  apply List.ext_getElem (by simp)
  intro n h1 h2
  rw [List.getElem_set]
  split
  · next he => subst he; exact List.getD_eq_getElem _ _ h2
  · rfl

theorem natGet_eq_some {xs : List Nat} {i v : Nat} :
    natGet xs i = some v ↔ i < xs.length ∧ xs.getD i 0 = v := by
  unfold natGet
  rw [List.getElem?_eq_some]
  constructor
  · rintro ⟨h, hv⟩; exact ⟨h, (List.getD_eq_getElem xs 0 h).trans hv⟩
  · rintro ⟨h, hv⟩; exact ⟨h, (List.getD_eq_getElem xs 0 h).symm.trans hv⟩

theorem natGet_of_lt {xs : List Nat} {i : Nat} (h : i < xs.length) :
    natGet xs i = some (xs.getD i 0) := natGet_eq_some.2 ⟨h, rfl⟩

theorem natSet_eq_some {xs ys : List Nat} {i v : Nat} :
    natSet xs i v = some ys ↔ i < xs.length ∧ ys = xs.set i v := by
  unfold natSet
  split
  · next h => simp [h, eq_comm]
  · next h => simp [h]

theorem npIdx_lt {len : Nat} {i : Int} {e : Nat} (h : npIdx len i = some e) :
    e < len := by
  unfold npIdx at h
  split at h
  · next hc =>
    have := hc.2
    simp only [Option.some.injEq] at h
    omega
  · split at h
    · next hc =>
      have h1 := hc.1
      have h2 := hc.2
      simp only [Option.some.injEq] at h
      omega
    · exact absurd h (by simp)

theorem npIdx_natCast {len n : Nat} (h : n < len) :
    npIdx len (n : Int) = some n := by
  unfold npIdx
  have : (0 : Int) ≤ (n : Int) ∧ (n : Int) < (len : Int) := by
    constructor <;> [exact Int.natCast_nonneg n; exact_mod_cast h]
  rw [if_pos this]
  simp

theorem npIdx_natCast_none {len n : Nat} (h : ¬ n < len) :
    npIdx len (n : Int) = none := by
  have h1 : ¬ ((0 : Int) ≤ (n : Int) ∧ (n : Int) < (len : Int)) := by
    intro hc
    have h2 : n < len := by exact_mod_cast hc.2
    omega
  have h2 : ¬ (-(len : Int) ≤ (n : Int) ∧ (n : Int) < 0) := by
    intro hc
    have h3 : (0 : Int) ≤ (n : Int) := Int.natCast_nonneg n
    omega
  unfold npIdx
  rw [if_neg h1, if_neg h2]

theorem npGet_natCast (xs : List Nat) (n : Nat) :
    npGet xs (n : Int) = natGet xs n := by
  by_cases h : n < xs.length
  · unfold npGet; rw [npIdx_natCast h]; rfl
  · unfold npGet
    rw [npIdx_natCast_none h]
    unfold natGet
    rw [List.getElem?_eq_none (le_of_not_lt h)]
    rfl

theorem npGet_eq_some {xs : List Nat} {i : Int} {v : Nat}
    (h : npGet xs i = some v) :
    ∃ e, npIdx xs.length i = some e ∧ e < xs.length ∧ xs.getD e 0 = v := by
  unfold npGet at h
  cases hidx : npIdx xs.length i with
  | none => rw [hidx] at h; simp at h
  | some e =>
    rw [hidx] at h
    simp only [Option.some_bind] at h
    exact ⟨e, rfl, (natGet_eq_some.1 h).1, (natGet_eq_some.1 h).2⟩

theorem npSet_eq_some {xs ys : List Nat} {i : Int} {v : Nat}
    (h : npSet xs i v = some ys) :
    ∃ e, npIdx xs.length i = some e ∧ e < xs.length ∧ ys = xs.set e v := by
  unfold npSet at h
  cases hidx : npIdx xs.length i with
  | none => rw [hidx] at h; simp at h
  | some e =>
    rw [hidx] at h
    simp only [Option.some_bind] at h
    exact ⟨e, rfl, (natSet_eq_some.1 h).1, (natSet_eq_some.1 h).2⟩

theorem getD_replicate {n d i : Nat} (h : i < n) :
    (List.replicate n d).getD i 0 = d := by
  rw [List.getD_eq_getElem _ _ (by simpa using h)]
  exact List.getElem_replicate _ _

/-! ### The processing order: a sorted permutation of all pixel indices -/

instance (f : List Nat) : IsTotal Nat (lexLe f) := by
  constructor
  intro a b
  rcases Nat.lt_trichotomy (f.getD a 0) (f.getD b 0) with h | h | h
  · exact Or.inl (Or.inl h)
  · rcases Nat.le_total a b with h2 | h2
    · exact Or.inl (Or.inr ⟨h, h2⟩)
    · exact Or.inr (Or.inr ⟨h.symm, h2⟩)
  · exact Or.inr (Or.inl h)

instance (f : List Nat) : IsTrans Nat (lexLe f) := by
  constructor
  intro a b c hab hbc
  rcases hab with h1 | ⟨h1, h1b⟩ <;> rcases hbc with h2 | ⟨h2, h2b⟩
  · exact Or.inl (h1.trans h2)
  · exact Or.inl (h2 ▸ h1)
  · exact Or.inl (h1 ▸ h2)
  · exact Or.inr ⟨h1.trans h2, h1b.trans h2b⟩

theorem argsort_perm (f : List Nat) :
    (argsort f).Perm (List.range f.length) :=
  List.perm_insertionSort _ _

theorem argsort_sorted (f : List Nat) :
    List.Sorted (lexLe f) (argsort f) :=
  List.sorted_insertionSort _ _

theorem order_length {s : List Nat} {res : Nat}
    (hp : s.Perm (List.range res)) : s.length = res := by
  have := hp.length_eq
  simpa using this

theorem order_nodup {s : List Nat} {res : Nat}
    (hp : s.Perm (List.range res)) : s.Nodup :=
  hp.nodup_iff.2 (List.nodup_range res)

theorem order_mem {s : List Nat} {res x : Nat}
    (hp : s.Perm (List.range res)) : x ∈ s ↔ x < res := by
  rw [hp.mem_iff, List.mem_range]

theorem order_indexOf_lt {s : List Nat} {res x : Nat}
    (hp : s.Perm (List.range res)) (hx : x < res) : s.indexOf x < res := by
  rw [← order_length hp]
  exact List.indexOf_lt_length.2 ((order_mem hp).2 hx)

theorem order_getD_indexOf {s : List Nat} {res x : Nat}
    (hp : s.Perm (List.range res)) (hx : x < res) :
    s.getD (s.indexOf x) 0 = x := by
  have h1 : s.indexOf x < s.length :=
    List.indexOf_lt_length.2 ((order_mem hp).2 hx)
  rw [List.getD_eq_getElem _ _ h1]
  simpa using List.indexOf_get h1

theorem order_indexOf_getD {s : List Nat} {res i : Nat}
    (hp : s.Perm (List.range res)) (hi : i < s.length) :
    s.indexOf (s.getD i 0) = i := by
  have hmem : s.getD i 0 ∈ s := by
    rw [List.getD_eq_getElem _ _ hi]
    exact List.getElem_mem hi
  have h1 : s.indexOf (s.getD i 0) < s.length := List.indexOf_lt_length.2 hmem
  have h2 : s[s.indexOf (s.getD i 0)] = s[i] := by
    have h3 := List.indexOf_get h1
    rw [List.get_eq_getElem] at h3
    simp only [h3]
    exact List.getD_eq_getElem _ _ hi
  exact ((order_nodup hp).getElem_inj_iff).1 h2

theorem order_indexOf_inj {s : List Nat} {res x y : Nat}
    (hp : s.Perm (List.range res)) (hx : x < res) (hy : y < res)
    (h : s.indexOf x = s.indexOf y) : x = y := by
  have := order_getD_indexOf hp hx
  rw [h, order_getD_indexOf hp hy] at this
  exact this.symm

theorem order_mono {f s : List Nat} {res x y : Nat}
    (hp : s.Perm (List.range res)) (hs : List.Sorted (lexLe f) s)
    (hx : x < res) (hy : y < res) (h : s.indexOf x ≤ s.indexOf y) :
    f.getD x 0 ≤ f.getD y 0 := by
  rcases lt_or_eq_of_le h with h1 | h1
  · have hxl : s.indexOf x < s.length :=
      List.indexOf_lt_length.2 ((order_mem hp).2 hx)
    have hyl : s.indexOf y < s.length :=
      List.indexOf_lt_length.2 ((order_mem hp).2 hy)
    have hrel := hs.rel_get_of_lt (a := ⟨s.indexOf x, hxl⟩) (b := ⟨s.indexOf y, hyl⟩) h1
    rw [List.get_eq_getElem, List.get_eq_getElem] at hrel
    rw [← List.getD_eq_getElem s 0 hxl, ← List.getD_eq_getElem s 0 hyl] at hrel
    rw [order_getD_indexOf hp hx, order_getD_indexOf hp hy] at hrel
    rcases hrel with h2 | h2
    · exact le_of_lt h2
    · exact le_of_eq h2.1
  · rw [order_indexOf_inj hp hx hy h1]

/-! ### The construction-loop invariant

After the main loop has processed the pixels of ascending-order positions
`m, m + 1, …, resolution - 1` (it walks the order backwards), an array
satisfies: entries of unprocessed pixels still hold the sentinel, and the
entry of a processed pixel is either the pixel itself or a processed pixel
strictly earlier in the ascending order.  Both `parents` and `zparents`
satisfy the same invariant, which is what every union and every path
compression preserves. -/

def UndefBelow (s : List Nat) (res m undef : Nat) (xs : List Nat) : Prop :=
  ∀ x, x < res → s.indexOf x < m → xs.getD x 0 = undef

def SelfDec (s : List Nat) (res m : Nat) (xs : List Nat) : Prop :=
  ∀ x, x < res → m ≤ s.indexOf x →
    xs.getD x 0 = x ∨
      (xs.getD x 0 < res ∧ m ≤ s.indexOf (xs.getD x 0) ∧
        s.indexOf (xs.getD x 0) < s.indexOf x)

def ZInv (s : List Nat) (res m undef : Nat) (xs : List Nat) : Prop :=
  xs.length = res ∧ UndefBelow s res m undef xs ∧ SelfDec s res m xs

/-- Path compression inside the loop: if the zparent array satisfies the
invariant and the lookup starts at a processed slot, a successful
`find_pixel_parent` preserves the invariant and returns a processed root
no later in the order than the start slot. -/
theorem find_spec {s : List Nat} {res m undef : Nat}
    (hp : s.Perm (List.range res)) :
    ∀ (fuel : Nat) (zs : List Nat) (n : Int) (zs2 : List Nat) (r e : Nat),
    ZInv s res m undef zs →
    npIdx zs.length n = some e → m ≤ s.indexOf e →
    find_pixel_parent fuel zs n = some (zs2, r) →
    ZInv s res m undef zs2 ∧ r < res ∧ m ≤ s.indexOf r ∧
      (r = e ∨ s.indexOf r < s.indexOf e) := by
  intro fuel
  induction fuel with
  | zero =>
    intro zs n zs2 r e _ _ _ hfind
    exact absurd hfind (by unfold find_pixel_parent; simp)
  | succ fuel ih =>
    intro zs n zs2 r e hz hidx hm hfind
    obtain ⟨hlen, hundef, hdec⟩ := hz
    have helt : e < zs.length := npIdx_lt hidx
    have heres : e < res := hlen ▸ helt
    have hget : npGet zs n = some (zs.getD e 0) := by
      unfold npGet
      rw [hidx]
      simp only [Option.some_bind]
      exact natGet_of_lt helt
    have hre := hdec e heres hm
    unfold find_pixel_parent at hfind
    rw [hget] at hfind
    dsimp only at hfind
    by_cases hb : ((zs.getD e 0 : Int) = n)
    · rw [if_pos hb] at hfind
      simp only [Option.some.injEq, Prod.mk.injEq] at hfind
      obtain ⟨hzs2, hr⟩ := hfind
      subst hzs2
      subst hr
      refine ⟨⟨hlen, hundef, hdec⟩, ?_, ?_, ?_⟩
      · rcases hre with h1 | h1
        · rw [h1]; exact heres
        · exact h1.1
      · rcases hre with h1 | h1
        · rw [h1]; exact hm
        · exact h1.2.1
      · rcases hre with h1 | h1
        · exact Or.inl h1
        · exact Or.inr h1.2.2
    · rw [if_neg hb] at hfind
      have hrootlt : zs.getD e 0 < res := by
        rcases hre with h1 | h1
        · rw [h1]; exact heres
        · exact h1.1
      have hrootm : m ≤ s.indexOf (zs.getD e 0) := by
        rcases hre with h1 | h1
        · rw [h1]; exact hm
        · exact h1.2.1
      cases hrec : find_pixel_parent fuel zs ((zs.getD e 0 : Nat) : Int) with
      | none => rw [hrec] at hfind; exact absurd hfind (by simp)
      | some pr =>
        obtain ⟨zs1, r1⟩ := pr
        rw [hrec] at hfind
        dsimp only at hfind
        have hidx1 : npIdx zs.length ((zs.getD e 0 : Nat) : Int) = some (zs.getD e 0) := by
          rw [hlen]
          exact npIdx_natCast hrootlt
        obtain ⟨hz1, hr1res, hr1m, hr1le⟩ :=
          ih zs ((zs.getD e 0 : Nat) : Int) zs1 r1 (zs.getD e 0)
            ⟨hlen, hundef, hdec⟩ hidx1 hrootm hrec
        have hcomp : r1 = e ∨ s.indexOf r1 < s.indexOf e := by
          rcases hr1le with h1 | h1
          · rcases hre with h2 | h2
            · exact Or.inl (h1.trans h2)
            · exact Or.inr (h1 ▸ h2.2.2)
          · rcases hre with h2 | h2
            · exact Or.inr (h2 ▸ h1)
            · exact Or.inr (h1.trans h2.2.2)
        cases hset : npSet zs1 n r1 with
        | none => rw [hset] at hfind; exact absurd hfind (by simp)
        | some zs3 =>
          rw [hset] at hfind
          dsimp only at hfind
          simp only [Option.some.injEq, Prod.mk.injEq] at hfind
          obtain ⟨hzs2, hr⟩ := hfind
          subst hzs2
          subst hr
          obtain ⟨hz1len, hz1undef, hz1dec⟩ := hz1
          obtain ⟨e2, hidx2, he2lt, hzs3⟩ := npSet_eq_some hset
          have he2 : e2 = e := by
            rw [hz1len, ← hlen] at hidx2
            rw [hidx] at hidx2
            exact (Option.some.inj hidx2).symm
          rw [he2] at he2lt hzs3
          subst hzs3
          refine ⟨⟨by rw [List.length_set]; exact hz1len, ?_, ?_⟩, hr1res, hr1m, hcomp⟩
          · intro x hx hxm
            have hxe : x ≠ e := by
              intro heq
              rw [heq] at hxm
              omega
            rw [getD_set_ne hxe]
            exact hz1undef x hx hxm
          · intro x hx hxm
            by_cases hxe : x = e
            · subst hxe
              rw [getD_set_self he2lt]
              rcases hcomp with h1 | h1
              · exact Or.inl h1
              · exact Or.inr ⟨hr1res, hr1m, h1⟩
            · rw [getD_set_ne hxe]
              exact hz1dec x hx hxm

/-- Every neighbor that survives the sentinel filter resolves (after numpy
index wrapping) to a slot holding a non-sentinel entry. -/
theorem filter_defined_spec {ps : List Nat} {undef : Nat} :
    ∀ nbrs kept, filter_defined ps undef nbrs = some kept →
    ∀ n ∈ kept, ∃ e, npIdx ps.length n = some e ∧ e < ps.length ∧
      ps.getD e 0 ≠ undef := by
  intro nbrs
  induction nbrs with
  | nil =>
    intro kept h n hn
    unfold filter_defined at h
    simp only [Option.some.injEq] at h
    subst h
    exact absurd hn (by simp)
  | cons n0 rest ih =>
    intro kept h n hn
    unfold filter_defined at h
    cases hget : npGet ps n0 with
    | none => rw [hget] at h; exact absurd h (by simp)
    | some v =>
      rw [hget] at h
      dsimp only at h
      cases hrest : filter_defined ps undef rest with
      | none => rw [hrest] at h; exact absurd h (by simp)
      | some tail =>
        rw [hrest] at h
        dsimp only at h
        simp only [Option.some.injEq] at h
        subst h
        by_cases hv : v = undef
        · rw [if_pos hv] at hn
          exact ih tail hrest n hn
        · rw [if_neg hv] at hn
          rcases List.mem_cons.1 hn with h1 | h1
          · subst h1
            obtain ⟨e, he1, he2, he3⟩ := npGet_eq_some hget
            exact ⟨e, he1, he2, by rw [he3]; exact hv⟩
          · exact ih tail hrest n h1

/-- A union write `zparents[r] = parents[r] = pi` for the current pixel
`pi` (the order-minimum among processed pixels) preserves the invariant. -/
theorem set_cur_preserves {s : List Nat} {res m undef : Nat}
    (hp : s.Perm (List.range res)) {xs : List Nat} {p r : Nat}
    (hz : ZInv s res m undef xs) (hpres : p < res) (hpm : s.indexOf p = m)
    (hrres : r < res) (hrm : m ≤ s.indexOf r) (hrp : r ≠ p) :
    ZInv s res m undef (xs.set r p) := by
  obtain ⟨hlen, hundef, hdec⟩ := hz
  have hrm2 : m < s.indexOf r := by
    rcases lt_or_eq_of_le hrm with h1 | h1
    · exact h1
    · exact absurd (order_indexOf_inj hp hrres hpres (h1.symm.trans hpm.symm)) hrp
  refine ⟨by rw [List.length_set]; exact hlen, ?_, ?_⟩
  · intro x hx hxm
    have hxr : x ≠ r := by
      intro heq
      rw [heq] at hxm
      omega
    rw [getD_set_ne hxr]
    exact hundef x hx hxm
  · intro x hx hxm
    by_cases hxr : x = r
    · subst hxr
      rw [getD_set_self (hlen ▸ hrres)]
      exact Or.inr ⟨hpres, le_of_eq hpm.symm, by omega⟩
    · rw [getD_set_ne hxr]
      exact hdec x hx hxm

/-- The inner merge loop of `maxtree_berger` preserves the invariant on
both arrays, provided every processed neighbor resolves to a processed
slot. -/
theorem merge_run_spec {s : List Nat} {res m undef : Nat}
    (hp : s.Perm (List.range res)) {p : Nat}
    (hpres : p < res) (hpm : s.indexOf p = m) :
    ∀ (kept : List Int) (ps zs : List Nat) (out : List Nat × List Nat),
    ZInv s res m undef ps → ZInv s res m undef zs →
    (∀ n ∈ kept, ∃ e, npIdx res n = some e ∧ m ≤ s.indexOf e) →
    merge_run res p (ps, zs) kept = some out →
    ZInv s res m undef out.1 ∧ ZInv s res m undef out.2 := by
  intro kept
  induction kept with
  | nil =>
    intro ps zs out hps hzs _ h
    unfold merge_run at h
    simp only [Option.some.injEq] at h
    subst h
    exact ⟨hps, hzs⟩
  | cons n0 rest ih =>
    intro ps zs out hps hzs hkept h
    unfold merge_run at h
    cases hstep : merge_step res p (ps, zs) n0 with
    | none => rw [hstep] at h; exact absurd h (by simp)
    | some st1 =>
      rw [hstep] at h
      dsimp only at h
      obtain ⟨e, he1, he2⟩ := hkept n0 (by simp)
      unfold merge_step at hstep
      cases hfind : find_pixel_parent (res + 1) zs n0 with
      | none => rw [hfind] at hstep; exact absurd hstep (by simp)
      | some pr =>
        obtain ⟨zs1, r⟩ := pr
        rw [hfind] at hstep
        dsimp only at hstep
        have he1a : npIdx zs.length n0 = some e := by rw [hzs.1]; exact he1
        obtain ⟨hz1, hrres, hrm, _⟩ :=
          find_spec hp (res + 1) zs n0 zs1 r e hzs he1a he2 hfind
        by_cases hrp : r = p
        · rw [if_pos hrp] at hstep
          simp only [Option.some.injEq] at hstep
          subst hstep
          exact ih ps zs1 out hps hz1 (fun n hn => hkept n (by simp [hn])) h
        · rw [if_neg hrp] at hstep
          cases hset1 : natSet zs1 r p with
          | none => rw [hset1] at hstep; exact absurd hstep (by simp)
          | some zs2 =>
            rw [hset1] at hstep
            dsimp only at hstep
            cases hset2 : natSet ps r p with
            | none => rw [hset2] at hstep; exact absurd hstep (by simp)
            | some ps2 =>
              rw [hset2] at hstep
              dsimp only at hstep
              simp only [Option.some.injEq] at hstep
              subst hstep
              obtain ⟨_, hzs2⟩ := natSet_eq_some.1 hset1
              obtain ⟨_, hps2⟩ := natSet_eq_some.1 hset2
              subst hzs2
              subst hps2
              exact ih _ _ out
                (set_cur_preserves hp hps hpres hpm hrres hrm hrp)
                (set_cur_preserves hp hz1 hpres hpm hrres hrm hrp)
                (fun n hn => hkept n (by simp [hn])) h

/-- Making the current pixel its own singleton root moves the invariant
one order position down. -/
theorem set_self_weaken {s : List Nat} {res m undef : Nat}
    (hp : s.Perm (List.range res)) {xs : List Nat} {p : Nat}
    (hz : ZInv s res (m + 1) undef xs) (hpres : p < res)
    (hpm : s.indexOf p = m) :
    ZInv s res m undef (xs.set p p) := by
  obtain ⟨hlen, hundef, hdec⟩ := hz
  refine ⟨by rw [List.length_set]; exact hlen, ?_, ?_⟩
  · intro x hx hxm
    have hxp : x ≠ p := by
      intro heq
      rw [heq, hpm] at hxm
      omega
    rw [getD_set_ne hxp]
    exact hundef x hx (by omega)
  · intro x hx hxm
    by_cases hxp : x = p
    · subst hxp
      rw [getD_set_self (hlen ▸ hpres)]
      exact Or.inl rfl
    · rw [getD_set_ne hxp]
      have hxm2 : m + 1 ≤ s.indexOf x := by
        rcases lt_or_eq_of_le hxm with h1 | h1
        · omega
        · exact absurd (order_indexOf_inj hp hpres hx (hpm.trans h1)) (fun he => hxp he.symm)
      rcases hdec x hx hxm2 with h1 | h1
      · exact Or.inl h1
      · exact Or.inr ⟨h1.1, by omega, h1.2.2⟩

/-- One full iteration of the main loop (make a singleton node, enumerate,
filter, merge) moves the invariant from position `m + 1` to position `m`. -/
theorem pixel_step_spec {s : List Nat} {res m undef : Nat}
    (hp : s.Perm (List.range res)) {conn : Bool} {width height : Nat}
    {ps zs : List Nat} {p : Nat} {out : List Nat × List Nat}
    (hps : ZInv s res (m + 1) undef ps) (hzs : ZInv s res (m + 1) undef zs)
    (hpres : p < res) (hpm : s.indexOf p = m)
    (h : pixel_step conn width height res undef (ps, zs) p = some out) :
    ZInv s res m undef out.1 ∧ ZInv s res m undef out.2 := by
  unfold pixel_step at h
  cases hset1 : natSet ps p p with
  | none => rw [hset1] at h; exact absurd h (by simp)
  | some ps1 =>
    rw [hset1] at h
    dsimp only at h
    cases hset2 : natSet zs p p with
    | none => rw [hset2] at h; exact absurd h (by simp)
    | some zs1 =>
      rw [hset2] at h
      dsimp only at h
      obtain ⟨_, hps1⟩ := natSet_eq_some.1 hset1
      obtain ⟨_, hzs1⟩ := natSet_eq_some.1 hset2
      subst hps1
      subst hzs1
      have hps1z : ZInv s res m undef (ps.set p p) := set_self_weaken hp hps hpres hpm
      have hzs1z : ZInv s res m undef (zs.set p p) := set_self_weaken hp hzs hpres hpm
      cases hfil : filter_defined (ps.set p p) undef
          (if conn then get_8_neighbors width height res p (p % width)
            else get_4_neighbors width height res p (p % width)) with
      | none => rw [hfil] at h; exact absurd h (by simp)
      | some kept =>
        rw [hfil] at h
        dsimp only at h
        refine merge_run_spec hp hpres hpm kept _ _ out hps1z hzs1z ?_ h
        intro n hn
        obtain ⟨e, he1, he2, he3⟩ := filter_defined_spec _ kept hfil n hn
        rw [hps1z.1] at he1 he2
        refine ⟨e, he1, ?_⟩
        by_contra hcon
        exact he3 (hps1z.2.1 e he2 (by omega))

/-- Running the main loop over the last `m` pixels of the ascending order
(in reverse) takes the invariant from position `m` all the way to `0`. -/
theorem pixels_run_spec {s : List Nat} {res undef : Nat}
    (hp : s.Perm (List.range res)) {conn : Bool} {width height : Nat} :
    ∀ (m : Nat), m ≤ res →
    ∀ (ps zs : List Nat) (out : List Nat × List Nat),
    ZInv s res m undef ps → ZInv s res m undef zs →
    pixels_run conn width height res undef (ps, zs) (s.take m).reverse = some out →
    ZInv s res 0 undef out.1 ∧ ZInv s res 0 undef out.2 := by
  intro m
  induction m with
  | zero =>
    intro _ ps zs out hps hzs h
    unfold pixels_run at h
    simp only [List.take_zero, List.reverse_nil] at h
    simp only [Option.some.injEq] at h
    subst h
    exact ⟨hps, hzs⟩
  | succ m ih =>
    intro hm ps zs out hps hzs h
    have hms : m < s.length := by rw [order_length hp]; omega
    have hsplit : (s.take (m + 1)).reverse = s[m] :: (s.take m).reverse := by
      rw [List.take_succ, List.getElem?_eq_getElem hms]
      simp [List.reverse_append]
    rw [hsplit] at h
    unfold pixels_run at h
    have hpmem : s[m] ∈ s := List.getElem_mem hms
    have hpres : s[m] < res := (order_mem hp).1 hpmem
    have hpord : s.indexOf s[m] = m := by
      have := order_indexOf_getD hp hms
      rw [List.getD_eq_getElem _ _ hms] at this
      exact this
    cases hstep : pixel_step conn width height res undef (ps, zs) s[m] with
    | none => rw [hstep] at h; exact absurd h (by simp)
    | some st1 =>
      rw [hstep] at h
      dsimp only at h
      obtain ⟨hst1, hst2⟩ := pixel_step_spec hp hps hzs hpres hpord hstep
      exact ih (by omega) st1.1 st1.2 out hst1 hst2 h

/-- The sentinel-filled initial arrays satisfy the invariant at position
`resolution` (nothing processed yet). -/
theorem replicate_inv {s : List Nat} {res undef : Nat}
    (hp : s.Perm (List.range res)) :
    ZInv s res res undef (List.replicate res undef) := by
  refine ⟨List.length_replicate res undef, ?_, ?_⟩
  · intro x hx _
    exact getD_replicate hx
  · intro x hx hxm
    have := order_indexOf_lt hp hx
    omega

/-- A successful construction pass leaves both output arrays satisfying
the invariant at position `0`: every entry is a valid pixel index that is
the pixel itself or one strictly earlier in the ascending order. -/
theorem bergerConstruct_spec {image : List (List Nat)} {conn : Bool}
    {ps1 zs1 : List Nat}
    (h : bergerConstruct image conn = some (ps1, zs1)) :
    ZInv (argsort image.flatten) image.flatten.length 0
      (image.flatten.length + 2) ps1 ∧
    ZInv (argsort image.flatten) image.flatten.length 0
      (image.flatten.length + 2) zs1 := by
  unfold bergerConstruct at h
  split at h
  · exact absurd h (by simp)
  · dsimp only at h
    split at h
    · split at h
      · have hp := argsort_perm image.flatten
        have hrun := h
        have hlen : (argsort image.flatten).length = image.flatten.length :=
          order_length hp
        have htake : (argsort image.flatten).take image.flatten.length =
            argsort image.flatten := by
          rw [← hlen]
          exact List.take_length _
        rw [← htake] at hrun
        exact pixels_run_spec hp image.flatten.length (le_refl _) _ _ (ps1, zs1)
          (replicate_inv hp) (replicate_inv hp) hrun
      · exact absurd h (by simp)
    · exact absurd h (by simp)

/-! ### The canonization pass -/

/-- Elimination principle for one successful `canonStep`: expose the four
reads and whether the one-level skip was written. -/
theorem canonStep_cases {st st1 : List Nat × List Nat} {pi : Nat}
    (h : canonStep st pi = some st1) :
    ∃ root a pr b, natGet st.2 pi = some root ∧ natGet st.1 root = some a ∧
      natGet st.2 root = some pr ∧ natGet st.1 pr = some b ∧
      ((a = b ∧ pi < st.2.length ∧ st1 = (st.1, st.2.set pi pr)) ∨
        (a ≠ b ∧ st1 = st)) := by
  unfold canonStep at h
  cases h1 : natGet st.2 pi with
  | none => rw [h1] at h; exact absurd h (by simp)
  | some root =>
    rw [h1] at h
    dsimp only at h
    cases h2 : natGet st.1 root with
    | none => rw [h2] at h; exact absurd h (by simp)
    | some a =>
      rw [h2] at h
      dsimp only at h
      cases h3 : natGet st.2 root with
      | none => rw [h3] at h; exact absurd h (by simp)
      | some pr =>
        rw [h3] at h
        dsimp only at h
        cases h4 : natGet st.1 pr with
        | none => rw [h4] at h; exact absurd h (by simp)
        | some b =>
          rw [h4] at h
          dsimp only at h
          by_cases hab : a = b
          · rw [if_pos hab] at h
            cases h5 : natSet st.2 pi pr with
            | none => rw [h5] at h; exact absurd h (by simp)
            | some ps2 =>
              rw [h5] at h
              dsimp only at h
              simp only [Option.some.injEq] at h
              obtain ⟨hlt, hset⟩ := natSet_eq_some.1 h5
              exact ⟨root, a, pr, b, rfl, h2, h3, h4,
                Or.inl ⟨hab, hlt, by rw [← h, hset]⟩⟩
          · rw [if_neg hab] at h
            simp only [Option.some.injEq] at h
            exact ⟨root, a, pr, b, rfl, h2, h3, h4, Or.inr ⟨hab, h.symm⟩⟩


/-- Builder for a `canonStep` that performs the one-level skip. -/
theorem canonStep_build_eq {img cur : List Nat} {pi root a pr b : Nat}
    (h1 : natGet cur pi = some root) (h2 : natGet img root = some a)
    (h3 : natGet cur root = some pr) (h4 : natGet img pr = some b)
    (hab : a = b) (hlt : pi < cur.length) :
    canonStep (img, cur) pi = some (img, cur.set pi pr) := by
  unfold canonStep
  dsimp only
  rw [h1]
  dsimp only
  rw [h2]
  dsimp only
  rw [h3]
  dsimp only
  rw [h4]
  dsimp only
  rw [if_pos hab]
  unfold natSet
  rw [if_pos hlt]

/-- Builder for a `canonStep` whose guard is false (no write). -/
theorem canonStep_build_ne {img cur : List Nat} {pi root a pr b : Nat}
    (h1 : natGet cur pi = some root) (h2 : natGet img root = some a)
    (h3 : natGet cur root = some pr) (h4 : natGet img pr = some b)
    (hab : a ≠ b) :
    canonStep (img, cur) pi = some (img, cur) := by
  unfold canonStep
  dsimp only
  rw [h1]
  dsimp only
  rw [h2]
  dsimp only
  rw [h3]
  dsimp only
  rw [h4]
  dsimp only
  rw [if_neg hab]

/-- `canonize` never touches the image component of its state. -/
theorem canonize_fst :
    ∀ (L : List Nat) (st out : List Nat × List Nat),
    canonize st L = some out → out.1 = st.1 := by
  intro L
  induction L with
  | nil =>
    intro st out h
    unfold canonize at h
    simp only [Option.some.injEq] at h
    rw [← h]
  | cons pi rest ih =>
    intro st out h
    unfold canonize at h
    cases hstep : canonStep st pi with
    | none => rw [hstep] at h; exact absurd h (by simp)
    | some st1 =>
      rw [hstep] at h
      dsimp only at h
      obtain ⟨_, _, _, _, _, _, _, _, hcase⟩ := canonStep_cases hstep
      rcases hcase with ⟨_, _, hst1⟩ | ⟨_, hst1⟩
      · rw [ih st1 out h, hst1]
      · rw [ih st1 out h, hst1]

/-- `canonize` preserves the length of the parent array. -/
theorem canonize_length :
    ∀ (L : List Nat) (st out : List Nat × List Nat),
    canonize st L = some out → out.2.length = st.2.length := by
  intro L
  induction L with
  | nil =>
    intro st out h
    unfold canonize at h
    simp only [Option.some.injEq] at h
    rw [← h]
  | cons pi rest ih =>
    intro st out h
    unfold canonize at h
    cases hstep : canonStep st pi with
    | none => rw [hstep] at h; exact absurd h (by simp)
    | some st1 =>
      rw [hstep] at h
      dsimp only at h
      obtain ⟨_, _, _, _, _, _, _, _, hcase⟩ := canonStep_cases hstep
      rcases hcase with ⟨_, _, hst1⟩ | ⟨_, hst1⟩
      · rw [ih st1 out h, hst1]
        exact List.length_set _ _ _
      · rw [ih st1 out h, hst1]

/-- Every entry of the parent array stays a valid index whose intensity is
at most the pixel's own intensity, through the whole canonization pass. -/
def ParentBound (f : List Nat) (res : Nat) (cur : List Nat) : Prop :=
  ∀ x, x < res → cur.getD x 0 < res ∧ f.getD (cur.getD x 0) 0 ≤ f.getD x 0

theorem canonize_keep_bound {f : List Nat} {res : Nat} (hf : f.length = res) :
    ∀ (L : List Nat) (cur : List Nat) (out : List Nat × List Nat),
    cur.length = res → ParentBound f res cur →
    canonize (f, cur) L = some out →
    out.2.length = res ∧ ParentBound f res out.2 := by
  intro L
  induction L with
  | nil =>
    intro cur out hlen hbound h
    unfold canonize at h
    simp only [Option.some.injEq] at h
    rw [← h]
    exact ⟨hlen, hbound⟩
  | cons pi rest ih =>
    intro cur out hlen hbound h
    unfold canonize at h
    cases hstep : canonStep (f, cur) pi with
    | none => rw [hstep] at h; exact absurd h (by simp)
    | some st1 =>
      rw [hstep] at h
      dsimp only at h
      obtain ⟨root, a, pr, b, h1, h2, h3, h4, hcase⟩ := canonStep_cases hstep
      dsimp only at h1 h2 h3 h4 hcase
      obtain ⟨hpi_lt, hroot⟩ := natGet_eq_some.1 h1
      obtain ⟨hroot_lt, ha⟩ := natGet_eq_some.1 h2
      obtain ⟨_, hpr⟩ := natGet_eq_some.1 h3
      obtain ⟨hpr_lt, hb⟩ := natGet_eq_some.1 h4
      rcases hcase with ⟨hab, _, hst1⟩ | ⟨_, hst1⟩
      · subst hst1
        refine ih (cur.set pi pr) out (by rw [List.length_set]; exact hlen) ?_ h
        intro x hx
        by_cases hxpi : x = pi
        · subst hxpi
          rw [getD_set_self (hlen ▸ hx)]
          constructor
          · exact hf ▸ hpr_lt
          · have hchain : f.getD pr 0 = f.getD root 0 := by
              rw [hb, ha, hab]
            rw [hchain, ← hroot]
            exact (hbound x hx).2
        · rw [getD_set_ne hxpi]
          exact hbound x hx
      · subst hst1
        exact ih cur out hlen hbound h

/-- A pixel that is its own parent stays its own parent through
canonization. -/
theorem canonize_keep_self {img : List Nat} :
    ∀ (L : List Nat) (cur : List Nat) (out : List Nat × List Nat) (x : Nat),
    canonize (img, cur) L = some out → cur.getD x 0 = x →
    out.2.getD x 0 = x := by
  intro L
  induction L with
  | nil =>
    intro cur out x h hx
    unfold canonize at h
    simp only [Option.some.injEq] at h
    rw [← h]
    exact hx
  | cons pi rest ih =>
    intro cur out x h hx
    unfold canonize at h
    cases hstep : canonStep (img, cur) pi with
    | none => rw [hstep] at h; exact absurd h (by simp)
    | some st1 =>
      rw [hstep] at h
      dsimp only at h
      obtain ⟨root, a, pr, b, h1, h2, h3, h4, hcase⟩ := canonStep_cases hstep
      dsimp only at h1 h2 h3 h4 hcase
      obtain ⟨hpi_lt, hroot⟩ := natGet_eq_some.1 h1
      obtain ⟨_, hpr⟩ := natGet_eq_some.1 h3
      rcases hcase with ⟨_, _, hst1⟩ | ⟨_, hst1⟩
      · subst hst1
        refine ih (cur.set pi pr) out x h ?_
        by_cases hxpi : x = pi
        · subst hxpi
          rw [getD_set_self hpi_lt]
          rw [hx] at hroot
          rw [← hroot] at hpr
          rw [hx] at hpr
          exact hpr.symm
        · rw [getD_set_ne hxpi]
          exact hx
      · subst hst1
        exact ih cur out x h hx

/-- Canonization only ever replaces a parent pointer by a pointer of the
same image intensity: the intensity of every pixel's parent is unchanged
by the pass, for any traversal order. -/
theorem canonize_img_level {img : List Nat} :
    ∀ (L : List Nat) (cur : List Nat) (out : List Nat × List Nat),
    canonize (img, cur) L = some out →
    ∀ p, natGet img (out.2.getD p 0) = natGet img (cur.getD p 0) := by
  intro L
  induction L with
  | nil =>
    intro cur out h p
    unfold canonize at h
    simp only [Option.some.injEq] at h
    rw [← h]
  | cons pi rest ih =>
    intro cur out h p
    unfold canonize at h
    cases hstep : canonStep (img, cur) pi with
    | none => rw [hstep] at h; exact absurd h (by simp)
    | some st1 =>
      rw [hstep] at h
      dsimp only at h
      obtain ⟨root, a, pr, b, h1, h2, h3, h4, hcase⟩ := canonStep_cases hstep
      dsimp only at h1 h2 h3 h4 hcase
      obtain ⟨hpi_lt, hroot⟩ := natGet_eq_some.1 h1
      rcases hcase with ⟨hab, _, hst1⟩ | ⟨_, hst1⟩
      · subst hst1
        have hih := ih (cur.set pi pr) out h p
        rw [hih]
        by_cases hppi : p = pi
        · subst hppi
          rw [getD_set_self hpi_lt, hroot, h4, h2, hab]
        · rw [getD_set_ne hppi]
      · subst hst1
        exact ih cur out h p

/-! ### Idempotence of the canonization pass -/

/-- The shape the Builder guarantees: every parent pointer is the pixel
itself or a pixel strictly earlier in the ascending order. -/
def HDec (s : List Nat) (res : Nat) (cur : List Nat) : Prop :=
  ∀ x, x < res → cur.getD x 0 = x ∨
    (cur.getD x 0 < res ∧ s.indexOf (cur.getD x 0) < s.indexOf x)

/-- Pixel `y` is canonized: its parent is a level root (its own parent is
itself, or lies at a strictly different intensity). -/
def Canon (f cur : List Nat) (y : Nat) : Prop :=
  cur.getD (cur.getD y 0) 0 = cur.getD y 0 ∨
    f.getD (cur.getD (cur.getD y 0) 0) 0 ≠ f.getD (cur.getD y 0) 0

theorem mem_pre_iff_indexOf {s pre suf : List Nat}
    (hnd : s.Nodup) (hsplit : s = pre ++ suf) {z : Nat} (hz : z ∈ s) :
    z ∈ pre ↔ s.indexOf z < pre.length := by
  constructor
  · intro hzp
    rw [hsplit, List.indexOf_append_of_mem hzp]
    exact List.indexOf_lt_length.2 hzp
  · intro hlt
    by_contra hzp
    rw [hsplit, List.indexOf_append_of_not_mem hzp] at hlt
    omega

/-- Running `canonize` over the remaining order suffix keeps the Builder
shape and leaves every pixel of the whole order canonized. -/
theorem canon_pass_good {f s : List Nat} {res : Nat}
    (hp : s.Perm (List.range res)) (hf : f.length = res) :
    ∀ (suf pre cur : List Nat) (out : List Nat × List Nat),
    s = pre ++ suf → cur.length = res → HDec s res cur →
    (∀ y ∈ pre, Canon f cur y) →
    canonize (f, cur) suf = some out →
    out.2.length = res ∧ HDec s res out.2 ∧ ∀ y ∈ s, Canon f out.2 y := by
  intro suf
  induction suf with
  | nil =>
    intro pre cur out hsplit hlen hdec hcanon h
    unfold canonize at h
    simp only [Option.some.injEq] at h
    subst h
    refine ⟨hlen, hdec, ?_⟩
    intro y hy
    rw [hsplit, List.append_nil] at hy
    exact hcanon y hy
  | cons pi rest ih =>
    intro pre cur out hsplit hlen hdec hcanon h
    have hnd : s.Nodup := order_nodup hp
    have hpimem : pi ∈ s := by rw [hsplit]; simp
    have hpires : pi < res := (order_mem hp).1 hpimem
    have hpinotpre : pi ∉ pre := by
      rw [hsplit] at hnd
      have := (List.nodup_append.1 hnd).2.2
      intro hc
      exact this hc (by simp)
    have hordpi : s.indexOf pi = pre.length := by
      rw [hsplit, List.indexOf_append_of_not_mem hpinotpre,
        List.indexOf_cons_self]
      omega
    unfold canonize at h
    cases hstep : canonStep (f, cur) pi with
    | none => rw [hstep] at h; exact absurd h (by simp)
    | some st1 =>
      rw [hstep] at h
      dsimp only at h
      obtain ⟨root, a, pr, b, h1, h2, h3, h4, hcase⟩ := canonStep_cases hstep
      dsimp only at h1 h2 h3 h4 hcase
      obtain ⟨hpi_lt, hroot⟩ := natGet_eq_some.1 h1
      obtain ⟨hroot_ltf, ha⟩ := natGet_eq_some.1 h2
      obtain ⟨hroot_ltc, hpr⟩ := natGet_eq_some.1 h3
      obtain ⟨hpr_ltf, hb⟩ := natGet_eq_some.1 h4
      have hsplit2 : s = (pre ++ [pi]) ++ rest := by
        rw [hsplit, List.append_assoc]
        rfl
      have hrootdec := hdec pi hpires
      rw [hroot] at hrootdec
      rcases hcase with ⟨hab, _, hst1⟩ | ⟨hab, hst1⟩
      · -- the one-level skip is written: cur becomes cur.set pi pr
        subst hst1
        have hlen1 : (cur.set pi pr).length = res := by
          rw [List.length_set]; exact hlen
        -- facts about pr relative to pi
        have hprdec : pr = root ∨ (pr < res ∧ s.indexOf pr < s.indexOf root) := by
          rcases hrootdec with hr | hr
          · -- root = pi, so pr = cur[pi] = root
            rw [hr] at hpr
            rw [hroot] at hpr
            exact Or.inl hpr.symm
          · have := hdec root hr.1
            rw [hpr] at this
            exact this
        have hdec1 : HDec s res (cur.set pi pr) := by
          intro x hx
          by_cases hxpi : x = pi
          · subst hxpi
            rw [getD_set_self (hlen ▸ hx)]
            rcases hrootdec with hr | hr
            · rcases hprdec with hq | hq
              · exact Or.inl (hq.trans hr)
              · rw [hr] at hq
                exact Or.inr ⟨hq.1, hq.2⟩
            · rcases hprdec with hq | hq
              · rw [hq]
                exact Or.inr ⟨hr.1, hr.2⟩
              · exact Or.inr ⟨hq.1, hq.2.trans hr.2⟩
          · rw [getD_set_ne hxpi]
            exact hdec x hx
        refine ih (pre ++ [pi]) (cur.set pi pr) out hsplit2 hlen1 hdec1 ?_ h
        intro y hy
        rcases List.mem_append.1 hy with hy | hy
        · -- previously canonized pixels stay canonized
          have hyres : y < res := (order_mem hp).1 (by rw [hsplit]; exact List.mem_append_left _ hy)
          have hypi : y ≠ pi := fun he => hpinotpre (he ▸ hy)
          have hordy : s.indexOf y < s.indexOf pi := by
            rw [hordpi]
            exact (mem_pre_iff_indexOf hnd hsplit
              (by rw [hsplit]; exact List.mem_append_left _ hy)).1 hy
          have hv := hdec y hyres
          have hvne : cur.getD y 0 ≠ pi := by
            rcases hv with hv | hv
            · rw [hv]; exact hypi
            · intro hc
              rw [hc] at hv
              omega
          have hcy := hcanon y hy
          unfold Canon at hcy ⊢
          rw [getD_set_ne hypi, getD_set_ne hvne]
          exact hcy
        · -- the pixel just processed is now canonized
          simp only [List.mem_singleton] at hy
          rw [hy]
          unfold Canon
          rw [getD_set_self (hlen ▸ hpires)]
          rcases hrootdec with hr | hr
          · -- self-rooted pixel: the write stored pi back
            have hpr2 : pr = pi := by
              rw [hr] at hpr
              rw [hroot] at hpr
              rw [hr] at hpr
              exact hpr.symm
            rw [hpr2]
            rw [getD_set_self (hlen ▸ hpires)]
            exact Or.inl rfl
          · -- root was processed earlier and is itself canonized
            have hrootpre : root ∈ pre := by
              refine (mem_pre_iff_indexOf hnd hsplit
                ((order_mem hp).2 hr.1)).2 ?_
              rw [← hordpi]
              exact hr.2
            have hcroot := hcanon root hrootpre
            unfold Canon at hcroot
            rw [hpr] at hcroot
            have hprpi : pr ≠ pi := by
              intro hc
              rcases hprdec with hq | hq
              · rw [hc] at hq
                rw [hq] at hr
                omega
              · rw [hc] at hq
                have := hr.2
                omega
            rw [getD_set_ne hprpi]
            exact hcroot
      · -- guard failed: nothing written, and that makes pi canonized
        subst hst1
        refine ih (pre ++ [pi]) cur out hsplit2 hlen hdec ?_ h
        intro y hy
        rcases List.mem_append.1 hy with hy | hy
        · exact hcanon y hy
        · simp only [List.mem_singleton] at hy
          subst hy
          unfold Canon
          rw [hroot, hpr]
          refine Or.inr ?_
          rw [hb, ha]
          exact fun hc => hab hc.symm

/-- On an array in Builder shape in which every order pixel is canonized,
`canonize` is the identity (and succeeds). -/
theorem canon_pass_noop {f s : List Nat} {res : Nat} (hf : f.length = res) :
    ∀ (L cur : List Nat), cur.length = res → HDec s res cur →
    (∀ y ∈ L, y < res ∧ Canon f cur y) →
    canonize (f, cur) L = some (f, cur) := by
  intro L
  induction L with
  | nil =>
    intro cur _ _ _
    unfold canonize
    rfl
  | cons pi rest ih =>
    intro cur hlen hdec hcanon
    obtain ⟨hpires, hcpi⟩ := hcanon pi (by simp)
    have hroot_lt : cur.getD pi 0 < res := by
      rcases hdec pi hpires with h1 | h1
      · rw [h1]; exact hpires
      · exact h1.1
    have hpr_lt : cur.getD (cur.getD pi 0) 0 < res := by
      rcases hdec (cur.getD pi 0) hroot_lt with h1 | h1
      · rw [h1]; exact hroot_lt
      · exact h1.1
    have h1 : natGet cur pi = some (cur.getD pi 0) := natGet_of_lt (hlen ▸ hpires)
    have h2 : natGet f (cur.getD pi 0) = some (f.getD (cur.getD pi 0) 0) :=
      natGet_of_lt (hf ▸ hroot_lt)
    have h3 : natGet cur (cur.getD pi 0) = some (cur.getD (cur.getD pi 0) 0) :=
      natGet_of_lt (hlen ▸ hroot_lt)
    have h4 : natGet f (cur.getD (cur.getD pi 0) 0) =
        some (f.getD (cur.getD (cur.getD pi 0) 0) 0) :=
      natGet_of_lt (hf ▸ hpr_lt)
    by_cases hab : f.getD (cur.getD pi 0) 0 = f.getD (cur.getD (cur.getD pi 0) 0) 0
    · -- equal levels: the Canon property forces the skip to write the
      -- value already present
      have hprroot : cur.getD (cur.getD pi 0) 0 = cur.getD pi 0 := by
        rcases hcpi with hc | hc
        · exact hc
        · exact absurd hab.symm hc
      have hstep := canonStep_build_eq h1 h2 h3 h4 hab (hlen ▸ hpires)
      unfold canonize
      rw [hstep]
      dsimp only
      rw [hprroot, set_getD_self (hlen ▸ hpires)]
      exact ih cur hlen hdec (fun y hy => hcanon y (by simp [hy]))
    · have hstep := canonStep_build_ne h1 h2 h3 h4 hab
      unfold canonize
      rw [hstep]
      dsimp only
      exact ih cur hlen hdec (fun y hy => hcanon y (by simp [hy]))

/-! ### Full functional specification of the Disjoint-Set Resolver -/

theorem parentChain_const {ps : List Nat} {i : Nat} (h : ps.getD i 0 = i) :
    ∀ j, parentChain ps i j = i := by
  intro j
  induction j with
  | zero => rfl
  | succ j ih =>
    unfold parentChain
    rw [ih]
    exact h

theorem parentChain_shift (ps : List Nat) (i : Nat) :
    ∀ j, parentChain ps (ps.getD i 0) j = parentChain ps i (j + 1) := by
  intro j
  induction j with
  | zero => rfl
  | succ j ih =>
    unfold parentChain
    rw [ih]

theorem maxtree_eq {image : List (List Nat)} {conn : Bool}
    {out : List Nat × List Nat × List Nat}
    (h : maxtree_berger image conn = some out) :
    ∃ ps1 zs1 st2, bergerConstruct image conn = some (ps1, zs1) ∧
      canonize (image.flatten, ps1) (argsort image.flatten) = some st2 ∧
      out = (st2.1, st2.2, argsort image.flatten) := by
  unfold maxtree_berger at h
  cases h1 : bergerConstruct image conn with
  | none => rw [h1] at h; exact absurd h (by simp)
  | some pz =>
    obtain ⟨ps1, zs1⟩ := pz
    rw [h1] at h
    dsimp only at h
    cases h2 : canonize (image.flatten, ps1) (argsort image.flatten) with
    | none => rw [h2] at h; exact absurd h (by simp)
    | some st2 =>
      rw [h2] at h
      dsimp only at h
      simp only [Option.some.injEq] at h
      exact ⟨ps1, zs1, st2, rfl, h2, h.symm⟩

/-- Claim C5: for every parents array in which the chain of parent pointers
starting from `index` stays inside the array and reaches a self-referencing
entry (after `k` steps), `find_pixel_parent` terminates (succeeds with any
fuel above the chain length), returns the root `r` of that chain (which
satisfies `parents[r] = r` and is reachable from `index`), and afterwards
every entry on the path from `index` to `r` points directly at `r` while
every other entry is unchanged. -/
theorem find_pixel_parent_resolves :
    ∀ (k : Nat) (ps : List Nat) (i fuel : Nat),
    (∀ j, j ≤ k → parentChain ps i j < ps.length) →
    ps.getD (parentChain ps i k) 0 = parentChain ps i k →
    k + 1 ≤ fuel →
    ∃ ps2, find_pixel_parent fuel ps (i : Int) = some (ps2, parentChain ps i k) ∧
      ps2.length = ps.length ∧
      (∀ j, j ≤ k → ps2.getD (parentChain ps i j) 0 = parentChain ps i k) ∧
      (∀ x, (∀ j, j ≤ k → x ≠ parentChain ps i j) → ps2.getD x 0 = ps.getD x 0) := by
  intro k
  induction k with
  | zero =>
    intro ps i fuel hvalid hroot hfuel
    cases fuel with
    | zero => omega
    | succ f =>
      have hival : i < ps.length := hvalid 0 (by omega)
      have hri : ps.getD i 0 = i := hroot
      refine ⟨ps, ?_, rfl, ?_, ?_⟩
      · unfold find_pixel_parent
        rw [npGet_natCast, natGet_of_lt hival]
        dsimp only
        rw [hri]
        rw [if_pos rfl]
        rfl
      · intro j hj
        interval_cases j
        exact hri
      · intro x _
        rfl
  | succ k ih =>
    intro ps i fuel hvalid hroot hfuel
    have hival : i < ps.length := hvalid 0 (by omega)
    by_cases hself : ps.getD i 0 = i
    · -- the start is already a root: the whole chain is constant
      have hconst := parentChain_const hself
      cases fuel with
      | zero => omega
      | succ f =>
        refine ⟨ps, ?_, rfl, ?_, ?_⟩
        · rw [hconst (k + 1)]
          unfold find_pixel_parent
          rw [npGet_natCast, natGet_of_lt hival]
          dsimp only
          rw [hself]
          rw [if_pos rfl]
        · intro j hj
          rw [hconst j, hconst (k + 1)]
          exact hself
        · intro x _
          rfl
    · cases fuel with
      | zero => omega
      | succ f =>
        have hvalid1 : ∀ j, j ≤ k → parentChain ps (ps.getD i 0) j < ps.length := by
          intro j hj
          rw [parentChain_shift]
          exact hvalid (j + 1) (by omega)
        have hroot1 : ps.getD (parentChain ps (ps.getD i 0) k) 0 =
            parentChain ps (ps.getD i 0) k := by
          rw [parentChain_shift]
          exact hroot
        obtain ⟨ps1, hf1, hlen1, hpath1, hunch1⟩ :=
          ih ps (ps.getD i 0) f hvalid1 hroot1 (by omega)
        have hr : parentChain ps (ps.getD i 0) k = parentChain ps i (k + 1) :=
          parentChain_shift ps i k
        refine ⟨ps1.set i (parentChain ps i (k + 1)), ?_, ?_, ?_, ?_⟩
        · unfold find_pixel_parent
          rw [npGet_natCast, natGet_of_lt hival]
          dsimp only
          rw [if_neg (by
            intro hc
            exact hself (by exact_mod_cast hc))]
          rw [hr] at hf1
          rw [hf1]
          dsimp only
          have hset : npSet ps1 (i : Int) (parentChain ps i (k + 1)) =
              some (ps1.set i (parentChain ps i (k + 1))) := by
            have hidx : npIdx ps1.length (i : Int) = some i := by
              rw [hlen1]
              exact npIdx_natCast hival
            unfold npSet
            rw [hidx]
            simp only [Option.some_bind]
            unfold natSet
            rw [if_pos (by rw [hlen1]; exact hival)]
          rw [hset]
        · rw [List.length_set]
          exact hlen1
        · intro j hj
          cases j with
          | zero =>
            exact getD_set_self (hlen1 ▸ hival)
          | succ j =>
            rw [← parentChain_shift ps i j]
            by_cases hxi : parentChain ps (ps.getD i 0) j = i
            · rw [hxi]
              exact getD_set_self (hlen1 ▸ hival)
            · rw [getD_set_ne hxi]
              rw [← hr]
              exact hpath1 j (by omega)
        · intro x hx
          have hxi : x ≠ i := hx 0 (by omega)
          rw [getD_set_ne hxi]
          refine hunch1 x ?_
          intro j hj
          rw [parentChain_shift ps i j]
          exact hx (j + 1) (by omega)

/-! ### Assembly: facts about the composed pipeline -/

theorem ZInv_HDec {s : List Nat} {res undef : Nat} {ps : List Nat}
    (hz : ZInv s res 0 undef ps) : HDec s res ps := by
  intro x hx
  rcases hz.2.2 x hx (Nat.zero_le _) with h1 | h1
  · exact Or.inl h1
  · exact Or.inr ⟨h1.1, h1.2.2⟩

theorem HDec_ParentBound {f s : List Nat} {res : Nat} {cur : List Nat}
    (hp : s.Perm (List.range res)) (hs : List.Sorted (lexLe f) s)
    (hd : HDec s res cur) : ParentBound f res cur := by
  intro x hx
  rcases hd x hx with h1 | h1
  · rw [h1]
    exact ⟨hx, le_refl _⟩
  · exact ⟨h1.1, order_mono hp hs h1.1 hx (le_of_lt h1.2)⟩

/-- The final parent array of a successful run is `resolution` long and
satisfies the parent-intensity bound. -/
theorem maxtree_final_bound {image : List (List Nat)} {conn : Bool}
    {img2 parents2 order : List Nat}
    (h : maxtree_berger image conn = some (img2, parents2, order)) :
    parents2.length = image.flatten.length ∧
    ParentBound image.flatten image.flatten.length parents2 := by
  obtain ⟨ps1, zs1, st2, hc, hcan, hout⟩ := maxtree_eq h
  simp only [Prod.mk.injEq] at hout
  obtain ⟨_, hp2, _⟩ := hout
  subst hp2
  have hz := (bergerConstruct_spec hc).1
  have hp := argsort_perm image.flatten
  have hs := argsort_sorted image.flatten
  have hpb := HDec_ParentBound hp hs (ZInv_HDec hz)
  exact canonize_keep_bound rfl (argsort image.flatten) ps1 st2 hz.1 hpb hcan

theorem nonEmptyRect_res_pos {image : List (List Nat)}
    (h : NonEmptyRect image) : 0 < image.flatten.length := by
  obtain ⟨h1, h2, _⟩ := h
  cases image with
  | nil => exact absurd rfl h1
  | cons r0 rest =>
    simp only [List.headD_cons] at h2
    simp only [List.flatten_cons, List.length_append]
    omega

theorem reaches_min {f parents2 : List Nat} {res : Nat}
    (hlen : parents2.length = res) (hpb : ParentBound f res parents2) :
    ∀ q r, Reaches parents2 q r → f.getD r 0 ≤ f.getD q 0 := by
  intro q r h
  induction h with
  | refl => exact le_refl _
  | tail _ hstep ih =>
    obtain ⟨hb, hbc⟩ := hstep
    rw [← hbc]
    exact le_trans (hpb _ (hlen ▸ hb)).2 ih

/-! ### The claims -/

/-- Claim C1: for every non-empty rectangular input image and either
connectivity setting, in the parent array returned by `maxtree_berger`
(after canonization), every pixel `p` satisfies
`intensity[parent[p]] <= intensity[p]`, where intensity is the flattened
input image and the parent is read at `p`'s flat index. -/
theorem maxtree_parent_intensity_le {image : List (List Nat)} {conn : Bool}
    {img2 parents2 order : List Nat}
    (hne : NonEmptyRect image)
    (h : maxtree_berger image conn = some (img2, parents2, order)) :
    ∀ p, p < image.flatten.length →
      image.flatten.getD (parents2.getD p 0) 0 ≤ image.flatten.getD p 0 := by
  intro p hplt
  exact ((maxtree_final_bound h).2 p hplt).2

/-- Claim C2: on the spec's end-to-end scenario — intensities `[5, 3, 3, 5]`
as one row of four columns, 4-connectivity, ties by ascending index — the
modelled argsort does give the expected ascending order `[1, 2, 0, 3]`, but
`maxtree_berger` raises an IndexError (modelled as `none`) instead of
returning the expected parent array `[1, 1, 1, 1]`: with `width = 1` the
`% width` row checks accept the out-of-range right neighbor `4`, and the
filter then reads `parents[4]` out of bounds. -/
theorem maxtree_spec_scenario_crashes :
    argsort [5, 3, 3, 5] = [1, 2, 0, 3] ∧
    maxtree_berger [[5, 3, 3, 5]] false = none := by
  constructor
  · decide
  · decide

/-- Claim C3: `get_4_neighbors` does not return the orthogonal neighbors
the spec describes.  For the top-left corner of a 2-by-2 image
(`width = 2`, `height = 2`, `resolution = 4`, `pi = 0`,
`pixel_row = 0 % 2 = 0`) the spec expects exactly the two neighbors
`{1, 2}`; the code returns only `[2]`, because the left/right check
`(pi ± 1) % width == pixel_row` is never true when `width ≥ 2`. -/
theorem get_4_neighbors_corner_missing :
    get_4_neighbors 2 2 4 0 0 = [2] ∧
    ¬ ((1 : Int) ∈ get_4_neighbors 2 2 4 0 0) ∧
    (get_4_neighbors 2 2 4 0 0).length = 1 := by
  refine ⟨by decide, by decide, by decide⟩

/-- Claim C4: the neighbor enumerators can return duplicates and indices
past the array end.  With `width = 1`, `height = 4`, `resolution = 4`,
`pi = 3`, `pixel_row = 3 % 1 = 0`, both `get_4_neighbors` and
`get_8_neighbors` return `[2, 2, 4]`: the index `2` twice and the
out-of-range index `4`. -/
theorem get_neighbors_duplicate_out_of_range :
    get_4_neighbors 1 4 4 3 0 = [2, 2, 4] ∧
    get_8_neighbors 1 4 4 3 0 = [2, 2, 4] ∧
    ¬ (get_4_neighbors 1 4 4 3 0).Nodup ∧
    (∃ n ∈ get_4_neighbors 1 4 4 3 0, ¬ n < (4 : Int)) := by
  refine ⟨by decide, by decide, by decide, by decide⟩

/-- Claim C6: the Canonizer is idempotent on every parent array produced by
the Builder's pass: if the construction pass succeeds and one `canonize`
run (in ascending intensity order) produces a state, a second run over the
same order returns that state unchanged. -/
theorem canonize_idempotent {image : List (List Nat)} {conn : Bool}
    {ps1 zs1 : List Nat} {st2 : List Nat × List Nat}
    (hc : bergerConstruct image conn = some (ps1, zs1))
    (hcan : canonize (image.flatten, ps1) (argsort image.flatten) = some st2) :
    canonize st2 (argsort image.flatten) = some st2 := by
  have hp := argsort_perm image.flatten
  have hz := (bergerConstruct_spec hc).1
  have hfst := canonize_fst (argsort image.flatten) _ _ hcan
  obtain ⟨hlen2, hdec2, hcanon2⟩ :=
    canon_pass_good hp rfl (argsort image.flatten) [] ps1 st2
      (by simp) hz.1 (ZInv_HDec hz) (fun y hy => absurd hy (List.not_mem_nil y))
      hcan
  have hnoop := canon_pass_noop rfl (argsort image.flatten) st2.2 hlen2 hdec2
    (fun y hy => ⟨(order_mem hp).1 hy, hcanon2 y hy⟩)
  have hst2 : (image.flatten, st2.2) = st2 := by
    have hfst2 : st2.1 = image.flatten := hfst
    rw [← hfst2]
  rw [← hst2]
  exact hnoop

/-- Claim C7: after a completed construction pass, and in the final
returned parent array, no entry equals the undefined sentinel
`resolution + 2` and no entry lies outside the valid index range: every
entry is a pixel index below `resolution`. -/
theorem no_leaked_sentinel {image : List (List Nat)} {conn : Bool}
    {ps1 zs1 img2 parents2 order : List Nat}
    (hne : NonEmptyRect image)
    (hc : bergerConstruct image conn = some (ps1, zs1))
    (h : maxtree_berger image conn = some (img2, parents2, order)) :
    (∀ x, x < image.flatten.length →
      ps1.getD x 0 < image.flatten.length ∧
      ps1.getD x 0 ≠ image.flatten.length + 2) ∧
    (∀ x, x < image.flatten.length →
      parents2.getD x 0 < image.flatten.length ∧
      parents2.getD x 0 ≠ image.flatten.length + 2) := by
  constructor
  · intro x hx
    have hz := (bergerConstruct_spec hc).1
    have hlt : ps1.getD x 0 < image.flatten.length := by
      rcases ZInv_HDec hz x hx with h1 | h1
      · rw [h1]; exact hx
      · exact h1.1
    exact ⟨hlt, by omega⟩
  · intro x hx
    have hlt : parents2.getD x 0 < image.flatten.length :=
      ((maxtree_final_bound h).2 x hx).1
    exact ⟨hlt, by omega⟩

/-- Claim C8: in the final parent array of a successful run on a non-empty
rectangular image, the set of self-parented pixels is non-empty, and every
self-parented pixel has minimum intensity among all pixels that reach it by
following parent pointers. -/
theorem roots_are_global_minima {image : List (List Nat)} {conn : Bool}
    {img2 parents2 order : List Nat}
    (hne : NonEmptyRect image)
    (h : maxtree_berger image conn = some (img2, parents2, order)) :
    (∃ p, p < image.flatten.length ∧ parents2.getD p 0 = p) ∧
    (∀ r, r < image.flatten.length → parents2.getD r 0 = r →
      ∀ q, Reaches parents2 q r →
        image.flatten.getD r 0 ≤ image.flatten.getD q 0) := by
  obtain ⟨ps1, zs1, st2, hc, hcan, hout⟩ := maxtree_eq h
  simp only [Prod.mk.injEq] at hout
  obtain ⟨_, hp2, _⟩ := hout
  have hz := (bergerConstruct_spec hc).1
  have hp := argsort_perm image.flatten
  constructor
  · -- the first pixel of the ascending order is self-parented
    have hres := nonEmptyRect_res_pos hne
    have h0lt : 0 < (argsort image.flatten).length := by
      rw [order_length hp]
      exact hres
    have hm0mem : (argsort image.flatten).getD 0 0 ∈ argsort image.flatten := by
      rw [List.getD_eq_getElem _ _ h0lt]
      exact List.getElem_mem h0lt
    have hm0res : (argsort image.flatten).getD 0 0 < image.flatten.length :=
      (order_mem hp).1 hm0mem
    have hm0ord : (argsort image.flatten).indexOf
        ((argsort image.flatten).getD 0 0) = 0 :=
      order_indexOf_getD hp h0lt
    have hself : ps1.getD ((argsort image.flatten).getD 0 0) 0 =
        (argsort image.flatten).getD 0 0 := by
      rcases ZInv_HDec hz _ hm0res with h1 | h1
      · exact h1
      · rw [hm0ord] at h1
        omega
    refine ⟨(argsort image.flatten).getD 0 0, hm0res, ?_⟩
    rw [hp2]
    exact canonize_keep_self (argsort image.flatten) ps1 st2 _ hcan hself
  · intro r hr hrself q hreach
    exact reaches_min (maxtree_final_bound h).1 (maxtree_final_bound h).2
      q r hreach

/-- Claim C9 (implicit): `canonize` preserves the intensity level of every
pixel's parent, for every image, parent array and traversal order: after a
successful run, reading the image at the new parent gives the same result
as reading it at the old parent. -/
theorem canonize_preserves_parent_level {img ps L : List Nat}
    {out : List Nat × List Nat}
    (h : canonize (img, ps) L = some out) :
    ∀ p, p < ps.length →
      natGet img (out.2.getD p 0) = natGet img (ps.getD p 0) := by
  intro p _
  exact canonize_img_level L ps out h p

/-- Claim C10 (implicit): `maxtree_berger` never modifies the image: the
algorithm works on the flattened image threaded through its state, writes
only to the parent and zparent arrays, and the image component it returns
equals the flattened input. -/
theorem maxtree_preserves_image {image : List (List Nat)} {conn : Bool}
    {img2 parents2 order : List Nat}
    (h : maxtree_berger image conn = some (img2, parents2, order)) :
    img2 = image.flatten := by
  obtain ⟨ps1, zs1, st2, hc, hcan, hout⟩ := maxtree_eq h
  simp only [Prod.mk.injEq] at hout
  obtain ⟨hi2, _, _⟩ := hout
  rw [hi2]
  exact canonize_fst (argsort image.flatten) _ _ hcan

/-! ### Witnesses: the conditional claims hold on a concrete run

The 2-by-1 image `[[5], [3]]` runs to completion under 4-connectivity:
`maxtree_berger [[5], [3]] false = some ([5, 3], [0, 1], [1, 0])`. -/

theorem maxtree_parent_intensity_le_witness :
    (NonEmptyRect [[5], [3]] ∧
      maxtree_berger [[5], [3]] false = some ([5, 3], [0, 1], [1, 0])) ∧
    (∀ p, p < ([[5], [3]] : List (List Nat)).flatten.length →
      ([[5], [3]] : List (List Nat)).flatten.getD
        (([0, 1] : List Nat).getD p 0) 0 ≤
        ([[5], [3]] : List (List Nat)).flatten.getD p 0) :=
  ⟨⟨by unfold NonEmptyRect; decide, by decide⟩,
    @maxtree_parent_intensity_le [[5], [3]] false [5, 3] [0, 1] [1, 0]
      (by unfold NonEmptyRect; decide) (by decide)⟩

theorem find_pixel_parent_resolves_witness :
    ((∀ j, j ≤ 1 → parentChain [1, 1] 0 j < ([1, 1] : List Nat).length) ∧
      ([1, 1] : List Nat).getD (parentChain [1, 1] 0 1) 0 =
        parentChain [1, 1] 0 1 ∧
      1 + 1 ≤ 2) ∧
    (∃ ps2, find_pixel_parent 2 [1, 1] ((0 : Nat) : Int) =
        some (ps2, parentChain [1, 1] 0 1) ∧
      ps2.length = ([1, 1] : List Nat).length ∧
      (∀ j, j ≤ 1 → ps2.getD (parentChain [1, 1] 0 j) 0 =
        parentChain [1, 1] 0 1) ∧
      (∀ x, (∀ j, j ≤ 1 → x ≠ parentChain [1, 1] 0 j) →
        ps2.getD x 0 = ([1, 1] : List Nat).getD x 0)) :=
  ⟨⟨by decide, by decide, by decide⟩,
    find_pixel_parent_resolves 1 [1, 1] 0 2 (by decide) (by decide) (by decide)⟩

theorem canonize_idempotent_witness :
    (bergerConstruct [[5], [3]] false = some ([0, 1], [0, 1]) ∧
      canonize (([[5], [3]] : List (List Nat)).flatten, [0, 1])
        (argsort ([[5], [3]] : List (List Nat)).flatten) =
        some ([5, 3], [0, 1])) ∧
    canonize ([5, 3], [0, 1])
      (argsort ([[5], [3]] : List (List Nat)).flatten) =
      some ([5, 3], [0, 1]) :=
  ⟨⟨by decide, by decide⟩,
    @canonize_idempotent [[5], [3]] false [0, 1] [0, 1] ([5, 3], [0, 1])
      (by decide) (by decide)⟩

theorem no_leaked_sentinel_witness :
    (NonEmptyRect [[5], [3]] ∧
      bergerConstruct [[5], [3]] false = some ([0, 1], [0, 1]) ∧
      maxtree_berger [[5], [3]] false = some ([5, 3], [0, 1], [1, 0])) ∧
    ((∀ x, x < ([[5], [3]] : List (List Nat)).flatten.length →
      ([0, 1] : List Nat).getD x 0 < ([[5], [3]] : List (List Nat)).flatten.length ∧
      ([0, 1] : List Nat).getD x 0 ≠ ([[5], [3]] : List (List Nat)).flatten.length + 2) ∧
    (∀ x, x < ([[5], [3]] : List (List Nat)).flatten.length →
      ([0, 1] : List Nat).getD x 0 < ([[5], [3]] : List (List Nat)).flatten.length ∧
      ([0, 1] : List Nat).getD x 0 ≠ ([[5], [3]] : List (List Nat)).flatten.length + 2)) :=
  ⟨⟨by unfold NonEmptyRect; decide, by decide, by decide⟩,
    @no_leaked_sentinel [[5], [3]] false [0, 1] [0, 1] [5, 3] [0, 1] [1, 0]
      (by unfold NonEmptyRect; decide) (by decide) (by decide)⟩

theorem roots_are_global_minima_witness :
    (NonEmptyRect [[5], [3]] ∧
      maxtree_berger [[5], [3]] false = some ([5, 3], [0, 1], [1, 0])) ∧
    ((∃ p, p < ([[5], [3]] : List (List Nat)).flatten.length ∧
      ([0, 1] : List Nat).getD p 0 = p) ∧
    (∀ r, r < ([[5], [3]] : List (List Nat)).flatten.length →
      ([0, 1] : List Nat).getD r 0 = r →
      ∀ q, Reaches [0, 1] q r →
        ([[5], [3]] : List (List Nat)).flatten.getD r 0 ≤
        ([[5], [3]] : List (List Nat)).flatten.getD q 0)) :=
  ⟨⟨by unfold NonEmptyRect; decide, by decide⟩,
    @roots_are_global_minima [[5], [3]] false [5, 3] [0, 1] [1, 0]
      (by unfold NonEmptyRect; decide) (by decide)⟩

theorem canonize_preserves_parent_level_witness :
    (canonize ([1, 1], [1, 0]) [0, 1] = some ([1, 1], [0, 0])) ∧
    (∀ p, p < ([1, 0] : List Nat).length →
      natGet [1, 1] (([0, 0] : List Nat).getD p 0) =
      natGet [1, 1] (([1, 0] : List Nat).getD p 0)) :=
  ⟨by decide,
    @canonize_preserves_parent_level [1, 1] [1, 0] [0, 1] ([1, 1], [0, 0])
      (by decide)⟩

theorem maxtree_preserves_image_witness :
    (maxtree_berger [[5], [3]] false = some ([5, 3], [0, 1], [1, 0])) ∧
    ([5, 3] : List Nat) = ([[5], [3]] : List (List Nat)).flatten :=
  ⟨by decide,
    @maxtree_preserves_image [[5], [3]] false [5, 3] [0, 1] [1, 0] (by decide)⟩

end MaMPy
